import Mathlib

/-!
Verification of the polynomial core of the snarkjs Baby Plonk prover
(src/polynomial/polynomial.js).  The source file contains the
`Polynomial` class (coefficient-buffer algebra) and the `babyPlonkProve`
five-round prover.  Polynomials are embedded as coefficient lists over a
commutative ring; the prime field `F_r` of the source is reached through
the ffjavascript field interface (`Fr.add`, `Fr.sub`, `Fr.mul`, `Fr.neg`,
`Fr.eq`, `Fr.inv`, `Fr.batchInverse`), which we model by the ring/field
operations of the coefficient type.  A coefficient buffer of byte length
`L * Fr.n8` is modelled by a list of length `L`; `buffer.slice(i*n8,
(i+1)*n8)` is `l.getD i 0` (a fresh `BigBuffer` is zero-initialised, and
reads past the end of a buffer yield zero bytes), and `buffer.set(v,
i*n8)` is `l.set i v`.
-/

set_option linter.unusedSectionVars false
set_option linter.unusedVariables false

namespace SnarkJS

section PolyDefs

variable {F : Type} [CommRing F] [DecidableEq F]

/-- Horner evaluation from the highest coefficient down, translating
`Polynomial.evaluate`: `res = Fr.add(coeff[i-1], Fr.mul(res, point))`
for `i = length` down to `1`, starting from `res = 0`. -/
def evaluate (c : List F) (x : F) : F :=
  c.foldr (fun a acc => a + acc * x) 0

/-- Scan of `revDeg` over the reversed coefficient buffer: the degree loop
of `Polynomial.degree` walks `i` from `length - 1` downwards and returns
the first `i` with a non-zero coefficient, falling through to `0`.  On the
reversed list this is: skip leading (i.e. trailing) zeros; when a non-zero
entry is found at reversed position `k`, its original index is the length
of the remaining tail. -/
def revDeg : List F → Nat
  | [] => 0
  | a :: t => if a = 0 then revDeg t else t.length

/-- Translates `Polynomial.degree`: index of the highest non-zero
coefficient, `0` if there is none (the loop never tests index `0`, but a
list whose only non-zero coefficient is at index `0` also yields `0`). -/
def degree (c : List F) : Nat :=
  revDeg c.reverse

/-- Translates `Polynomial.truncate`: shrink the buffer to `degree() + 1`
coefficients when that is shorter than the current buffer. -/
def truncate (c : List F) : List F :=
  if degree c + 1 < c.length then c.take (degree c + 1) else c

/-- The synthetic-division loop of `Polynomial.divByXValue`, run on the
reversed coefficient buffer.  The source fills the output from the top:
`coefs[L-1] = 0`, `coefs[L-2] = c[L-1]`, and
`coefs[i] = c[i+1] + value * coefs[i+1]` for `i = L-3 .. 0`; note the
`L-2` assignment is the same recurrence with `coefs[L-1] = 0`.  Reading
the output from index `L-1` down to `0` therefore scans the inputs
`c[L-1], c[L-2], ..., c[1]` (the reversed tail of `c`) with state
`s_0 = 0`, `s_{k+1} = input_k + value * s_k`. -/
def scanDivStep (v : F) (s : F) : List F → List F
  | [] => [s]
  | a :: t => s :: scanDivStep v (a + v * s) t

/-- Translates `Polynomial.divByXValue(value)`: synthetic division by
`X - value`.  The output buffer has the length of the input buffer; the
remainder check of the source is commented out, so the function is total
and any non-zero remainder is discarded.  (The source indexes `L-1` and
`L-2`, so it is only ever called with buffers of length at least 2; the
claims below carry that hypothesis.) -/
def divByXValue (v : F) (c : List F) : List F :=
  (scanDivStep v 0 ((c.drop 1).reverse)).reverse

/-- Coefficient list of the product `(X - v) * g`, used to state the
divisibility claims (not itself a source function): coefficient `i` is
`g_{i-1} - v * g_i` with `g` read as zero outside its index range. -/
def mulXSubC (v : F) (g : List F) : List F :=
  List.zipWith (fun a b => a - v * b) (0 :: g) (g ++ [0])

/-- Translates `Polynomial.divZh()`: divide a buffer of `4n` coefficients
(`n = domainSize`) by `Z_H = X^n - 1`.  The source computes
`coefs[i] = -c[i]` for `i < n` and `coefs[i] = coefs[i-n] - c[i]` for
`n <= i < 4n`; since `i - n` always lies in the previously finished block
of `n` entries, the loop is the block recursion written out here.  The
divisibility warning of the source is commented out, so there is no error
path.  `divZhLoop` is the loop over the three upper blocks: each block of
the output is the previous output block minus the corresponding input
block. -/
def divZhLoop (prev : List F) : List (List F) → List F
  | [] => []
  | blk :: rest =>
      List.zipWith (fun a b => a - b) prev blk
        ++ divZhLoop (List.zipWith (fun a b => a - b) prev blk) rest

def divZh (n : Nat) (c : List F) : List F :=
  (c.take n).map (fun a => -a)
    ++ divZhLoop ((c.take n).map (fun a => -a))
        [(c.drop n).take n, (c.drop (2 * n)).take n, (c.drop (3 * n)).take n]

/-- Coefficient list of `(X^n - 1) * h`, used to state the `divZh`
claim (not itself a source function): `X^n * h - h`, i.e. coefficient
`i` is `h_{i-n} - h_i` with `h` read as zero outside its range. -/
def mulZh (n : Nat) (h : List F) : List F :=
  List.zipWith (fun a b => a - b) (List.replicate n 0 ++ h) (h ++ List.replicate n 0)

/-- Translates `Polynomial.blindCoefficients(blindingFactors)`: the buffer
grows by one field element per factor (`this.length` is the original
length `L` throughout, since `this.coeff` is only replaced at the end);
iteration `i` adds `factors[i]` into position `L + i` and then subtracts
`factors[i]` from position `i`, each as read-modify-write on the current
buffer. -/
def blindCoefficients (p bf : List F) : List F :=
  (List.range bf.length).foldl
    (fun buf i =>
      let buf := buf.set (p.length + i) (buf.getD (p.length + i) 0 + bf.getD i 0)
      buf.set i (buf.getD i 0 - bf.getD i 0))
    (p ++ List.replicate bf.length 0)

/-- One iteration of the `blindCoefficients` loop (the body of the fold
above, written without the intermediate `let`). -/
def blindStep (p bf : List F) (buf : List F) (i : Nat) : List F :=
  (buf.set (p.length + i) (buf.getD (p.length + i) 0 + bf.getD i 0)).set i
    ((buf.set (p.length + i) (buf.getD (p.length + i) 0 + bf.getD i 0)).getD i 0
      - bf.getD i 0)

/-- The `blindCoefficients` loop stopped after `k` iterations. -/
def blindFold (p bf : List F) (k : Nat) : List F :=
  (List.range k).foldl (blindStep p bf) (p ++ List.replicate bf.length 0)

/-- One iteration of the `Polynomial.sub` loop (see `sub` below): the
source re-evaluates `this.degree()` on the partially updated buffer at
every index `i`: `a` is the current coefficient when `i < this.degree()`
(strictly!) and zero otherwise, `b` similarly with `polynomial.degree()`
(also strict), multiplied by the optional `blindingValue` when present;
the buffer entry `i` becomes `a - b`. -/
def subStep (q : List F) (s : Option F) (buf : List F) (i : Nat) : List F :=
  buf.set i ((if i < degree buf then buf.getD i 0 else 0) -
    match s with
    | some v => (if i < degree q then q.getD i 0 else 0) * v
    | none => (if i < degree q then q.getD i 0 else 0))

/-- The `Polynomial.sub` loop stopped after `k` of the `p.length`
iterations. -/
def subFold (p q : List F) (s : Option F) (k : Nat) : List F :=
  (List.range k).foldl (subStep q s) p

/-- Translates `Polynomial.sub(polynomial, blindingValue)`.  The guard
rejects a longer `polynomial` (`none` models the thrown error); the loop
runs `subStep` for `i = 0 .. p.length - 1` in place on `p`. -/
def sub (p q : List F) (s : Option F) : Option (List F) :=
  if q.length > p.length then none
  else some (subFold p q s p.length)

/-- Zero-pad a chunk buffer to `k` entries (a freshly allocated
`BigBuffer` is zero-initialised, and `BigBuffer.set` of a short slice
leaves the rest zero). -/
def padTo (k : Nat) (l : List F) : List F :=
  l ++ List.replicate (k - l.length) 0

/-- One output chunk of `Polynomial.split` (the body of the loop over
`i = 0 .. numPols-1`, here `j`), producing `m` chunks of `s = degPols+1`
coefficients each from buffer `c`.  A non-last chunk copies `s`
coefficients into a buffer of `s+1` entries and then sets
`blindingFactors[j]` at position `s`; the last chunk copies the whole
remaining buffer and is truncated at the end.  Every chunk except the
loop's first subtracts the previous blinding factor from coefficient 0
(`w` is the value subtracted by the first chunk of the loop: `none` in
the source's loop, used with `some` only to state the loop's recursive
structure in the lemmas below).  `subAt0` is the `// Sub blinding factor
to the lowest degree` step: subtract the given value (when present) from
coefficient 0 of the chunk buffer. -/
def subAt0 (w : Option F) (base : List F) : List F :=
  match w with
  | some v => base.set 0 (base.getD 0 0 - v)
  | none => base

/-- See `subAt0` above for the loop-body description. -/
def splitChunk (c : List F) (s : Nat) (bf : List F) (m : Nat) (w : Option F) (j : Nat) :
    List F :=
  if j = m - 1 then
    truncate (subAt0 (if j = 0 then w else some (bf.getD (j - 1) 0))
      (c.drop ((m - 1) * s)))
  else
    subAt0 (if j = 0 then w else some (bf.getD (j - 1) 0))
      ((padTo (s + 1) ((c.drop (j * s)).take s)).set s (bf.getD j 0))

/-- Translates `Polynomial.split(numPols, degPols, blindingFactors)`.
`none` models the two thrown errors (`numPols < 1`, wrong number of
blinding factors).  With `numPols = 1` the polynomial is returned as the
single chunk unchanged.  Otherwise `numRealPols = ceil((degree+1) /
(degPols+1))`; when fewer real chunks than requested exist, the missing
entries are single-coefficient zero polynomials and the loop runs over
`m = min numPols numRealPols` chunks. -/
def split (c : List F) (numPols degPols : Nat) (bf : List F) : Option (List (List F)) :=
  if numPols < 1 then none
  else if numPols = 1 then some [c]
  else if bf.length ≠ 0 ∧ bf.length < numPols - 1 then none
  else
    some ((List.range (min numPols ((degree c + (degPols + 1)) / (degPols + 1)))).map
        (splitChunk c (degPols + 1) bf
          (min numPols ((degree c + (degPols + 1)) / (degPols + 1))) none)
      ++ List.replicate (numPols - min numPols ((degree c + (degPols + 1)) / (degPols + 1)))
          [0])

/-- Sum of split chunks recombined with their `X^(j*s)` offsets, used to
state the C9 claim: `splitSum s x [q0, q1, ...] = q0(x) + x^s * (q1(x) +
x^s * (...))`. -/
def splitSum (s : Nat) (x : F) : List (List F) → F
  | [] => 0
  | ch :: rest => evaluate ch x + x ^ s * splitSum s x rest

/-- Translates the `buffers.B` construction of
`buildABEvaluationsBuffer` (prover round 1).  The loop computes
`b = getWitness(signalIdB)`, negates it on odd rows, adds the `k`
constant — and then stores `getWitness(signalIdB)` into the buffer
(line `buffers.B.set(getWitness(signalIdB), offset2)`), discarding the
computed value (kept here as the unused `_bk`).  `gw` abstracts
`getWitness`, `bMap` the B-map section, `kBuff` the K section.  (The
later `batchToMontgomery` call only changes the representation of the
stored field elements, not their values.) -/
def buildBufferB (gw : Nat → F) (bMap : List Nat) (kBuff : List F) (n : Nat) : List F :=
  (List.range n).map (fun i =>
    let b := gw (bMap.getD i 0)
    let b := if i % 2 ≠ 0 then -b else b
    let _bk := b + kBuff.getD i 0
    gw (bMap.getD i 0))

/-- The B buffer the specification describes (spec §4.7: `B[i] <-
get_witness(bMap[i]) + kCorrection[i]`, negating the witness
contribution first on odd rows); this is the value the source computes
and then fails to store. -/
def bufferBIntended (gw : Nat → F) (bMap : List Nat) (kBuff : List F) (n : Nat) : List F :=
  (List.range n).map (fun i =>
    (if i % 2 ≠ 0 then -(gw (bMap.getD i 0)) else gw (bMap.getD i 0)) + kBuff.getD i 0)

/-- Translates the `challenges.xiN` computation of round 5: starting
from `xi`, square `power` times (`xiN = xi ^ (2 ^ power) = xi ^ n`). -/
def computeXiN (xi : F) (power : Nat) : F :=
  (List.range power).foldl (fun a _ => a * a) xi

/-- Translates the `xinAdd2` computation of round 5 (under the comment
`TODO Compute xi^{n+2} to add to the split polynomial`):
`Fr.mul(Fr.mul(Fr.mul(challenges.xiN, challenges.xi), challenges.xi),
challenges.xi)`, i.e. `xiN * xi * xi * xi`; `splitT[1]` is then scaled
by this factor. -/
def computeXinAdd2 (xi : F) (power : Nat) : F :=
  ((computeXiN xi power * xi) * xi) * xi

/-- Translates the `proof.addEvaluation` calls of round 4, in source
order: keys `a`, `b`, `s1`, `t` at `xi` and `aw`, `bw`, `zw` at
`xi * omega` (the scalar evaluations accumulated into the proof). -/
def round4Evaluations (pA pB pS1 pT pZ : List F) (xi om : F) : List (String × F) :=
  [("a", evaluate pA xi), ("b", evaluate pB xi), ("s1", evaluate pS1 xi),
   ("t", evaluate pT xi),
   ("aw", evaluate pA (xi * om)), ("bw", evaluate pB (xi * om)),
   ("zw", evaluate pZ (xi * om))]

/-- Translates the single `proof.addEvaluation("r", eval_r)` call of
round 5, appended after the round-4 evaluations. -/
def round5AddEvaluations (prev : List (String × F)) (pR : List F) (xi : F) :
    List (String × F) :=
  prev ++ [("r", evaluate pR xi)]

/-- The list of evaluation keys present in the final proof object. -/
def proofEvaluationKeys (pA pB pS1 pT pZ pR : List F) (xi om : F) : List String :=
  (round5AddEvaluations (round4Evaluations pA pB pS1 pT pZ xi om) pR xi).map Prod.fst

/-- Translates `_proof.protocol = "baby_plonk"` at the end of
`babyPlonkProve`. -/
def proofProtocol : String :=
  "baby_plonk"

/-- Translates the public-signal extraction at the end of
`babyPlonkProve`: for `i = 1 .. nPublic`, read witness entry `i`. -/
def publicSignals (buffWitness : List F) (nPublic : Nat) : List F :=
  (List.range nPublic).map (fun i => buffWitness.getD (i + 1) 0)

end PolyDefs

section FieldDefs

variable {F : Type} [Field F] [DecidableEq F]

/-- Modelled from the spec: `Fr.batchInverse` (ffjavascript, not under
src/; interface in spec §4.1) computes the inverses of all entries with
Montgomery's trick; on buffers of non-zero entries it is the
elementwise inverse map. -/
def batchInverse (l : List F) : List F :=
  l.map (fun a => a⁻¹)

/-- One iteration of the accumulation loop of round 2: read entry `i`,
multiply by the factor for row `i`, store at `(i+1) mod n` (the final
iteration wraps around and overwrites entry 0). -/
def accumulateStep (f : Nat → F) (n : Nat) (arr : List F) (i : Nat) : List F :=
  arr.set ((i + 1) % n) (arr.getD i 0 * f i)

/-- The accumulation loop of round 2 stopped after `k` of its `n`
iterations, starting from a size-`n` zero buffer with `Fr.one` stored at
entry 0. -/
def accumulateFold (f : Nat → F) (n k : Nat) : List F :=
  (List.range k).foldl (accumulateStep f n) ((List.replicate n 0).set 0 1)

/-- The accumulation buffers `numArr` / `denArr` of round 2: a size-`n`
zero buffer with `Fr.one` stored at entry 0, then the loop over
`i = 0 .. n-1`. -/
def accumulateWrap (f : Nat → F) (n : Nat) : List F :=
  (List.range n).foldl (accumulateStep f n) ((List.replicate n 0).set 0 1)

/-- Row numerator of round 2: `(A[i] + beta*w^i + gamma) * (B[i] +
k1*(beta*w^i) + gamma)` (the source tracks `w = omega^i` by repeated
multiplication). -/
def round2Num (evalA evalB : Nat → F) (beta gamma k1 w : F) (i : Nat) : F :=
  ((evalA i + beta * w ^ i) + gamma) * ((evalB i + k1 * (beta * w ^ i)) + gamma)

/-- Row denominator of round 2: `(A[i] + sigma1[i]*beta + gamma) *
(B[i] + sigma2[i]*beta + gamma)`; `sigma1 i` models
`evaluations.sigma[4*i]` and `sigma2 i` models
`evaluations.sigma[4*(domainSize+i)]` (the stride-4 reads from the
coset-evaluation buffer). -/
def round2Den (evalA evalB sigma1 sigma2 : Nat → F) (beta gamma : F) (i : Nat) : F :=
  ((evalA i + sigma1 i * beta) + gamma) * ((evalB i + sigma2 i * beta) + gamma)

/-- The `buffers.Z` computation of round 2: accumulate numerators and
denominators separately (with wrap-around), batch-invert the
denominator buffer, and multiply entrywise. -/
def round2Z (num den : Nat → F) (n : Nat) : List F :=
  List.zipWith (fun a b => a * b) (accumulateWrap num n)
    (batchInverse (accumulateWrap den n))

/-- The close of round 2: after building `buffers.Z`, the source throws
`Copy constraints does not match` iff entry 0 differs from one
(modelled by `none`); otherwise the round proceeds (iNTT, blinding,
commitment of `[Z]_1`) with this buffer. -/
def round2Check (num den : Nat → F) (n : Nat) : Option (List F) :=
  if (round2Z num den n).getD 0 0 = 1 then some (round2Z num den n) else none

/-- Round 2 Z computation with the numerator/denominator formulas
plugged in. -/
def round2ComputeZ (evalA evalB sigma1 sigma2 : Nat → F) (beta gamma k1 w : F)
    (n : Nat) : Option (List F) :=
  round2Check (round2Num evalA evalB beta gamma k1 w)
    (round2Den evalA evalB sigma1 sigma2 beta gamma) n

/-- The recurrence of the specification: `Z[0] = 1`,
`Z[i+1] = Z[i] * num_i * den_i^{-1}` (index `n` standing for the
wrapped-around entry 0). -/
def recZ (num den : Nat → F) : Nat → F
  | 0 => 1
  | k + 1 => recZ num den k * (num k * (den k)⁻¹)

end FieldDefs

section StrDefs

/-- Translates the decimal stringification of the public signals
(`stringifyBigInts` over `Scalar.fromRprLE` values): witness entries
`1 .. nPublic` as decimal strings, in circuit order. -/
def publicSignalsStr (p : Nat) (w : List (ZMod p)) (nPublic : Nat) : List String :=
  (List.range nPublic).map (fun i => toString (w.getD (i + 1) 0).val)

/-- Prime field instance for the concrete witnesses (`F_5`). -/
instance : Fact (Nat.Prime 5) :=
  ⟨by norm_num⟩

end StrDefs

end SnarkJS

namespace SnarkJS

section PolyLemmas

variable {F : Type} [CommRing F] [DecidableEq F]

theorem scanDivStep_length (v s : F) (l : List F) :
    (scanDivStep v s l).length = l.length + 1 := by
  induction l generalizing s with
  | nil => rfl
  | cons a t ih => simp [scanDivStep, ih]

theorem scanDivStep_getD_zero (v s : F) (l : List F) :
    (scanDivStep v s l).getD 0 0 = s := by
  cases l <;> rfl

theorem scanDivStep_getD_succ (v : F) (l : List F) :
    ∀ (s : F) (k : Nat), k < l.length →
      (scanDivStep v s l).getD (k + 1) 0 =
        l.getD k 0 + v * (scanDivStep v s l).getD k 0 := by
  induction l with
  | nil => intro s k hk; simp at hk
  | cons a t ih =>
    intro s k hk
    cases k with
    | zero =>
      simp only [scanDivStep]
      rw [List.getD_cons_succ, List.getD_cons_zero, List.getD_cons_zero,
        scanDivStep_getD_zero]
    | succ k' =>
      have hk' : k' < t.length := by simpa using hk
      simp only [scanDivStep]
      have := ih (a + v * s) k' hk'
      simpa [List.getD] using this

/-- Key cancellation: scanning the difference list rebuilds the original
coefficients of the quotient. -/
theorem scanDivStep_cancel (v : F) :
    ∀ (l : List F) (s : F),
      scanDivStep v s (List.zipWith (fun a b => a - v * b) l (s :: l)) = s :: l := by
  intro l
  induction l with
  | nil => intro s; rfl
  | cons a t ih =>
    intro s
    simp only [List.zipWith, scanDivStep]
    have h : a - v * s + v * s = a := by ring
    rw [h, ih a]

theorem zipWith_take_right (f : F → F → F) :
    ∀ (a b : List F), List.zipWith f a (b.take a.length) = List.zipWith f a b := by
  intro a
  induction a with
  | nil => intro b; simp
  | cons x t ih =>
    intro b
    cases b with
    | nil => simp
    | cons y u => simp [List.zipWith, ih]

theorem divByXValue_mulXSubC (v : F) (g : List F) :
    divByXValue v (mulXSubC v g) = g ++ [0] := by
  unfold divByXValue mulXSubC
  cases g with
  | nil =>
    simp [scanDivStep]
  | cons g0 gt =>
    have hdrop : (List.zipWith (fun a b => a - v * b) (0 :: g0 :: gt) ((g0 :: gt) ++ [0])).drop 1
        = List.zipWith (fun a b => a - v * b) (g0 :: gt) (gt ++ [0]) := by
      simp
    rw [hdrop]
    have hlen : (g0 :: gt).length = (gt ++ [0]).length := by simp
    rw [List.reverse_zipWith hlen]
    have hrev : (gt ++ [(0 : F)]).reverse = 0 :: gt.reverse := by simp
    rw [hrev]
    have hgrev : (g0 :: gt).reverse = gt.reverse ++ [g0] := by simp
    have hstep : List.zipWith (fun a b => a - v * b) (g0 :: gt).reverse ((0 : F) :: gt.reverse)
        = List.zipWith (fun a b => a - v * b) (g0 :: gt).reverse
            ((0 : F) :: (g0 :: gt).reverse) := by
      rw [← zipWith_take_right (fun a b => a - v * b) (g0 :: gt).reverse
            ((0 : F) :: (g0 :: gt).reverse)]
      have hL : (g0 :: gt).reverse.length = gt.length + 1 := by simp
      rw [hL, hgrev]
      have htk : ((0 : F) :: (gt.reverse ++ [g0])).take (gt.length + 1)
          = (0 : F) :: gt.reverse := by
        have : (gt.reverse ++ [g0]).take gt.length = gt.reverse := by
          rw [List.take_append_of_le_length (by simp)]
          simp
        simp [List.take_succ_cons, this]
      rw [htk]
    rw [hstep, scanDivStep_cancel v (g0 :: gt).reverse 0]
    simp

theorem getD_rev {α : Type} (l : List α) (d : α) (i : Nat) (h : i < l.length) :
    l.reverse.getD i d = l.getD (l.length - 1 - i) d := by
  have h1 : i < l.reverse.length := by simpa using h
  have h2 : l.length - 1 - i < l.length := by omega
  rw [List.getD_eq_getElem l.reverse d h1, List.getD_eq_getElem l d h2,
    List.getElem_reverse]

theorem getD_drop {α : Type} (l : List α) (d : α) (m i : Nat)
    (h : m + i < l.length) :
    (l.drop m).getD i d = l.getD (m + i) d := by
  have h1 : i < (l.drop m).length := by simp; omega
  rw [List.getD_eq_getElem _ d h1, List.getD_eq_getElem l d h,
    List.getElem_drop]

theorem divByXValue_length (v : F) (c : List F) (h : 1 ≤ c.length) :
    (divByXValue v c).length = c.length := by
  unfold divByXValue
  rw [List.length_reverse, scanDivStep_length]
  simp
  omega

/-- C10: `divByXValue` is total on buffers of length at least 2 (the
remainder check in the source is commented out): it always returns the
synthetic-division quotient, a buffer of the same length whose top entry
is zero and whose remaining entries satisfy the synthetic-division
recurrence `q[i] = c[i+1] + v * q[i+1]` — with no divisibility hypothesis
on `c`, so any non-zero remainder is silently discarded. -/
theorem c10_divByXValue_total (v : F) (c : List F) (h : 2 ≤ c.length) :
    (divByXValue v c).length = c.length ∧
    (divByXValue v c).getD (c.length - 1) 0 = 0 ∧
    (divByXValue v c).getD (c.length - 2) 0 = c.getD (c.length - 1) 0 ∧
    ∀ i, i + 2 ≤ c.length →
      (divByXValue v c).getD i 0 = c.getD (i + 1) 0 + v * (divByXValue v c).getD (i + 1) 0 := by
  have hL : 1 ≤ c.length := by omega
  have hlen := divByXValue_length v c hL
  have hinlen : ((c.drop 1).reverse).length = c.length - 1 := by simp
  have hqr : (scanDivStep v 0 ((c.drop 1).reverse)).length = c.length := by
    rw [scanDivStep_length, hinlen]; omega
  have hqget : ∀ i, i < c.length →
      (divByXValue v c).getD i 0
        = (scanDivStep v 0 ((c.drop 1).reverse)).getD (c.length - 1 - i) 0 := by
    intro i hi
    unfold divByXValue
    rw [getD_rev _ _ i (by rw [hqr]; exact hi), hqr]
  have hrec : ∀ i, i + 2 ≤ c.length →
      (divByXValue v c).getD i 0 = c.getD (i + 1) 0 + v * (divByXValue v c).getD (i + 1) 0 := by
    intro i hi
    have h1 : (divByXValue v c).getD i 0
        = (scanDivStep v 0 ((c.drop 1).reverse)).getD (c.length - 1 - i) 0 :=
      hqget i (by omega)
    have h2 : (divByXValue v c).getD (i + 1) 0
        = (scanDivStep v 0 ((c.drop 1).reverse)).getD (c.length - 1 - (i + 1)) 0 :=
      hqget (i + 1) (by omega)
    have hk : c.length - 1 - i = (c.length - 2 - i) + 1 := by omega
    have hkin : c.length - 2 - i < ((c.drop 1).reverse).length := by
      rw [hinlen]; omega
    have hstep := scanDivStep_getD_succ v ((c.drop 1).reverse) 0 (c.length - 2 - i) hkin
    have hin : ((c.drop 1).reverse).getD (c.length - 2 - i) 0 = c.getD (i + 1) 0 := by
      rw [getD_rev _ _ _ (by simp; omega)]
      have : (c.drop 1).length - 1 - (c.length - 2 - i) = i := by simp; omega
      rw [this, getD_drop _ _ 1 i (by omega), Nat.add_comm]
    have hk2 : c.length - 1 - (i + 1) = c.length - 2 - i := by omega
    rw [h1, h2, hk, hstep, hin, hk2]
  refine ⟨hlen, ?_, ?_, hrec⟩
  · rw [hqget (c.length - 1) (by omega)]
    have : c.length - 1 - (c.length - 1) = 0 := by omega
    rw [this, scanDivStep_getD_zero]
  · have := hrec (c.length - 2) (by omega)
    have he : c.length - 2 + 1 = c.length - 1 := by omega
    rw [he] at this
    rw [this]
    have htop : (divByXValue v c).getD (c.length - 1) 0 = 0 := by
      rw [hqget (c.length - 1) (by omega)]
      have h0 : c.length - 1 - (c.length - 1) = 0 := by omega
      rw [h0, scanDivStep_getD_zero]
    rw [htop]
    ring

/-- Witness for C10 at a concrete input: `c = [1,2,3]` over `F_5`,
`v = 2` (note `c` is not divisible by `X - 2`: the remainder is
discarded). -/
theorem c10_witness :
    2 ≤ ([1, 2, 3] : List (ZMod 5)).length ∧
    ((divByXValue 2 ([1, 2, 3] : List (ZMod 5))).length = ([1, 2, 3] : List (ZMod 5)).length ∧
    (divByXValue 2 ([1, 2, 3] : List (ZMod 5))).getD (([1, 2, 3] : List (ZMod 5)).length - 1) 0 = 0 ∧
    (divByXValue 2 ([1, 2, 3] : List (ZMod 5))).getD (([1, 2, 3] : List (ZMod 5)).length - 2) 0
      = ([1, 2, 3] : List (ZMod 5)).getD (([1, 2, 3] : List (ZMod 5)).length - 1) 0 ∧
    ∀ i, i + 2 ≤ ([1, 2, 3] : List (ZMod 5)).length →
      (divByXValue 2 ([1, 2, 3] : List (ZMod 5))).getD i 0
        = ([1, 2, 3] : List (ZMod 5)).getD (i + 1) 0
          + 2 * (divByXValue 2 ([1, 2, 3] : List (ZMod 5))).getD (i + 1) 0) :=
  ⟨by decide, c10_divByXValue_total 2 [1, 2, 3] (by decide)⟩

/-- C6: dividing the exact product `(X - v) * g` by `X - v` returns
exactly `g`: the output buffer keeps the input length and stores a zero
in the top coefficient position. -/
theorem c6_divByXValue_exact (v : F) (g : List F) (h : 1 ≤ g.length) :
    divByXValue v (mulXSubC v g) = g ++ [0] ∧
    (divByXValue v (mulXSubC v g)).length = (mulXSubC v g).length ∧
    (divByXValue v (mulXSubC v g)).getD ((mulXSubC v g).length - 1) 0 = 0 := by
  have hmain := divByXValue_mulXSubC v g
  have hmlen : (mulXSubC v g).length = g.length + 1 := by
    unfold mulXSubC
    simp
  refine ⟨hmain, ?_, ?_⟩
  · rw [hmain, hmlen]
    simp
  · rw [hmain, hmlen]
    have : g.length + 1 - 1 = g.length := by omega
    rw [this, List.getD_append_right g [0] 0 g.length (by omega)]
    simp

/-- Witness for C6 at a concrete input: `g = [1,2]` over `F_5`,
`v = 3`. -/
theorem c6_witness :
    1 ≤ ([1, 2] : List (ZMod 5)).length ∧
    (divByXValue 3 (mulXSubC 3 ([1, 2] : List (ZMod 5))) = [1, 2] ++ [0] ∧
    (divByXValue 3 (mulXSubC 3 ([1, 2] : List (ZMod 5)))).length
      = (mulXSubC 3 ([1, 2] : List (ZMod 5))).length ∧
    (divByXValue 3 (mulXSubC 3 ([1, 2] : List (ZMod 5)))).getD
      ((mulXSubC 3 ([1, 2] : List (ZMod 5))).length - 1) 0 = 0) :=
  ⟨by decide, c6_divByXValue_exact 3 [1, 2] (by decide)⟩

theorem zipWith_sub_replicate_left (l : List F) :
    List.zipWith (fun a b => a - b) (List.replicate l.length 0) l
      = l.map (fun a => -a) := by
  induction l with
  | nil => rfl
  | cons a t ih =>
    simp only [List.length_cons, List.replicate_succ, List.zipWith_cons_cons, List.map_cons, ih]
    congr 1
    ring

theorem zipWith_sub_replicate_right (l : List F) :
    List.zipWith (fun a b => a - b) l (List.replicate l.length 0) = l := by
  induction l with
  | nil => rfl
  | cons a t ih =>
    simp only [List.length_cons, List.replicate_succ, List.zipWith_cons_cons, ih]
    congr 1
    ring

theorem zipWith_sub_replicate_left' (n : Nat) (l : List F) (h : l.length = n) :
    List.zipWith (fun a b => a - b) (List.replicate n 0) l
      = l.map (fun a => -a) := by
  subst h
  exact zipWith_sub_replicate_left l

theorem zipWith_sub_replicate_right' (n : Nat) (l : List F) (h : l.length = n) :
    List.zipWith (fun a b => a - b) l (List.replicate n 0) = l := by
  subst h
  exact zipWith_sub_replicate_right l

theorem zipWith_sub_cancel (a : List F) :
    ∀ b : List F, a.length = b.length →
      List.zipWith (fun x y => x - y) a (List.zipWith (fun x y => x - y) a b) = b := by
  induction a with
  | nil =>
    intro b hb
    cases b with
    | nil => rfl
    | cons y u => simp at hb
  | cons x t ih =>
    intro b hb
    cases b with
    | nil => simp at hb
    | cons y u =>
      simp only [List.zipWith_cons_cons]
      rw [ih u (by simpa using hb)]
      congr 1
      ring

theorem zipWith_sub_self (l : List F) :
    List.zipWith (fun x y => x - y) l l = List.replicate l.length 0 := by
  induction l with
  | nil => rfl
  | cons a t ih =>
    simp only [List.zipWith_cons_cons, List.length_cons, List.replicate_succ, ih]
    congr 1
    ring

theorem map_neg_map_neg (l : List F) :
    (l.map (fun a => -a)).map (fun a => -a) = l := by
  induction l with
  | nil => rfl
  | cons a t ih => simp [ih]

/-- Block form of `mulZh` on a concatenation of three blocks of length
`n` each. -/
theorem mulZh_blocks (n : Nat) (h0 h1 h2 : List F)
    (e0 : h0.length = n) (e1 : h1.length = n) (e2 : h2.length = n) :
    mulZh n ((h0 ++ h1) ++ h2)
      = (h0.map (fun a => -a))
        ++ (List.zipWith (fun a b => a - b) h0 h1
        ++ (List.zipWith (fun a b => a - b) h1 h2 ++ h2)) := by
  unfold mulZh
  have hL : List.replicate n (0 : F) ++ ((h0 ++ h1) ++ h2)
      = List.replicate n (0 : F) ++ (h0 ++ (h1 ++ h2)) := by
    simp [List.append_assoc]
  have hR : ((h0 ++ h1) ++ h2) ++ List.replicate n (0 : F)
      = h0 ++ (h1 ++ (h2 ++ List.replicate n (0 : F))) := by
    simp [List.append_assoc]
  rw [hL, hR]
  rw [List.zipWith_append _ _ _ _ _ (by simp [e0])]
  rw [List.zipWith_append _ _ _ _ _ (by simp [e0, e1])]
  rw [List.zipWith_append _ _ _ _ _ (by simp [e1, e2])]
  rw [zipWith_sub_replicate_left' n h0 e0, zipWith_sub_replicate_right' n h2 e2]

/-- Exactness of `divZh` on a three-block product, equational core. -/
theorem divZh_mulZh_blocks (n : Nat) (h0 h1 h2 : List F)
    (e0 : h0.length = n) (e1 : h1.length = n) (e2 : h2.length = n) :
    divZh n (mulZh n ((h0 ++ h1) ++ h2))
      = ((h0 ++ h1) ++ h2) ++ List.replicate n 0 := by
  rw [mulZh_blocks n h0 h1 h2 e0 e1 e2]
  unfold divZh
  have lm : (h0.map (fun a => -a)).length = n := by simp [e0]
  have l01 : (List.zipWith (fun a b => a - b) h0 h1).length = n := by
    simp [e0, e1]
  have l12 : (List.zipWith (fun a b => a - b) h1 h2).length = n := by
    simp [e1, e2]
  have htake : ((h0.map (fun a => -a))
      ++ (List.zipWith (fun a b => a - b) h0 h1
      ++ (List.zipWith (fun a b => a - b) h1 h2 ++ h2))).take n
      = h0.map (fun a => -a) := List.take_left' lm
  have hdrop : ((h0.map (fun a => -a))
      ++ (List.zipWith (fun a b => a - b) h0 h1
      ++ (List.zipWith (fun a b => a - b) h1 h2 ++ h2))).drop n
      = List.zipWith (fun a b => a - b) h0 h1
        ++ (List.zipWith (fun a b => a - b) h1 h2 ++ h2) := List.drop_left' lm
  have hdrop2 : ((h0.map (fun a => -a))
      ++ (List.zipWith (fun a b => a - b) h0 h1
      ++ (List.zipWith (fun a b => a - b) h1 h2 ++ h2))).drop (2 * n)
      = List.zipWith (fun a b => a - b) h1 h2 ++ h2 := by
    have h2n : 2 * n = n + n := by omega
    rw [h2n, ← List.drop_drop, hdrop, List.drop_left' l01]
  have hdrop3 : ((h0.map (fun a => -a))
      ++ (List.zipWith (fun a b => a - b) h0 h1
      ++ (List.zipWith (fun a b => a - b) h1 h2 ++ h2))).drop (3 * n)
      = h2 := by
    have h3n : 3 * n = 2 * n + n := by omega
    rw [h3n, ← List.drop_drop, hdrop2, List.drop_left' l12]
  rw [htake, hdrop, hdrop2, hdrop3]
  rw [List.take_left' l01, List.take_left' l12, List.take_of_length_le (le_of_eq e2)]
  rw [map_neg_map_neg h0]
  simp only [divZhLoop]
  rw [zipWith_sub_cancel h0 h1 (by omega)]
  rw [zipWith_sub_cancel h1 h2 (by omega)]
  rw [zipWith_sub_self h2, e2]
  simp [List.append_assoc]

theorem getD_replicate_zero (n j : Nat) :
    (List.replicate n (0 : F)).getD j 0 = 0 := by
  by_cases hc : j < n
  · rw [List.getD_eq_getElem _ _ (by simpa using hc), List.getElem_replicate]
  · rw [List.getD_eq_default]
    simpa using hc

theorem mulZh_length (n : Nat) (h : List F) :
    (mulZh n h).length = h.length + n := by
  unfold mulZh
  simp
  omega

theorem mulZh_getD (n : Nat) (h : List F) (i : Nat) (hi : i < h.length + n) :
    (mulZh n h).getD i 0
      = (List.replicate n (0 : F) ++ h).getD i 0
        - (h ++ List.replicate n (0 : F)).getD i 0 := by
  have hb : i < (mulZh n h).length := by rw [mulZh_length]; exact hi
  unfold mulZh at hb ⊢
  rw [List.getD_eq_getElem _ _ hb, List.getElem_zipWith,
    List.getD_eq_getElem _ _ (by simp; omega), List.getD_eq_getElem _ _ (by simp; omega)]

/-- C7: for a buffer built as `(X^n - 1) * h` with `4n` coefficients
(equivalently `h` has `3n` coefficients), `divZh` returns a buffer of
`4n` coefficients satisfying `q[i] = -c[i]` for `i < n` and
`q[i] = q[i-n] - c[i]` for `n <= i < 4n`, and this quotient is exactly
`h` (padded with `n` zero coefficients to length `4n`). -/
theorem c7_divZh_exact (n : Nat) (h : List F) (hl : h.length = 3 * n) :
    (divZh n (mulZh n h)).length = 4 * n ∧
    (∀ i, i < n → (divZh n (mulZh n h)).getD i 0 = -((mulZh n h).getD i 0)) ∧
    (∀ i, n ≤ i → i < 4 * n →
      (divZh n (mulZh n h)).getD i 0
        = (divZh n (mulZh n h)).getD (i - n) 0 - (mulZh n h).getD i 0) ∧
    divZh n (mulZh n h) = h ++ List.replicate n 0 := by
  have l0 : (h.take n).length = n := by simp; omega
  have l1 : ((h.drop n).take n).length = n := by simp; omega
  have l2 : ((h.drop n).drop n).length = n := by simp; omega
  have hsplit : (h.take n ++ (h.drop n).take n) ++ (h.drop n).drop n = h := by
    rw [List.append_assoc, List.take_append_drop, List.take_append_drop]
  have hmain : divZh n (mulZh n h) = h ++ List.replicate n 0 := by
    conv_lhs => rw [← hsplit]
    rw [divZh_mulZh_blocks n _ _ _ l0 l1 l2, hsplit]
  have hlen : (divZh n (mulZh n h)).length = 4 * n := by
    rw [hmain]
    simp
    omega
  refine ⟨hlen, ?_, ?_, hmain⟩
  · intro i hin
    have hc : (mulZh n h).getD i 0
        = (List.replicate n (0 : F) ++ h).getD i 0
          - (h ++ List.replicate n (0 : F)).getD i 0 :=
      mulZh_getD n h i (by omega)
    have hpl : (List.replicate n (0 : F) ++ h).getD i 0 = 0 := by
      rw [List.getD_append _ _ _ _ (by simpa using hin), getD_replicate_zero]
    have hpr : (h ++ List.replicate n (0 : F)).getD i 0 = h.getD i 0 := by
      rw [List.getD_append _ _ _ _ (by omega)]
    have hq : (divZh n (mulZh n h)).getD i 0 = h.getD i 0 := by
      rw [hmain, List.getD_append _ _ _ _ (by omega)]
    rw [hq, hc, hpl, hpr]
    ring
  · intro i hni hi4
    have hc : (mulZh n h).getD i 0
        = (List.replicate n (0 : F) ++ h).getD i 0
          - (h ++ List.replicate n (0 : F)).getD i 0 :=
      mulZh_getD n h i (by omega)
    have hpl : (List.replicate n (0 : F) ++ h).getD i 0 = h.getD (i - n) 0 := by
      rw [List.getD_append_right _ _ _ _ (by simpa using hni)]
      simp
    have hqsub : (divZh n (mulZh n h)).getD (i - n) 0 = h.getD (i - n) 0 := by
      rw [hmain, List.getD_append _ _ _ _ (by omega)]
    by_cases h3 : i < 3 * n
    · have hpr : (h ++ List.replicate n (0 : F)).getD i 0 = h.getD i 0 := by
        rw [List.getD_append _ _ _ _ (by omega)]
      have hq : (divZh n (mulZh n h)).getD i 0 = h.getD i 0 := by
        rw [hmain, List.getD_append _ _ _ _ (by omega)]
      rw [hq, hqsub, hc, hpl, hpr]
      ring
    · have hpr : (h ++ List.replicate n (0 : F)).getD i 0 = 0 := by
        rw [List.getD_append_right _ _ _ _ (by omega), getD_replicate_zero]
      have hq : (divZh n (mulZh n h)).getD i 0 = 0 := by
        rw [hmain, List.getD_append_right _ _ _ _ (by omega), getD_replicate_zero]
      rw [hq, hqsub, hc, hpl, hpr]
      ring

/-- Witness for C7 at a concrete input: `n = 1`, `h = [1,2,3]` over
`F_5`. -/
theorem c7_witness :
    (([1, 2, 3] : List (ZMod 5)).length = 3 * 1) ∧
    ((divZh 1 (mulZh 1 ([1, 2, 3] : List (ZMod 5)))).length = 4 * 1 ∧
    (∀ i, i < 1 → (divZh 1 (mulZh 1 ([1, 2, 3] : List (ZMod 5)))).getD i 0
        = -((mulZh 1 ([1, 2, 3] : List (ZMod 5))).getD i 0)) ∧
    (∀ i, 1 ≤ i → i < 4 * 1 →
      (divZh 1 (mulZh 1 ([1, 2, 3] : List (ZMod 5)))).getD i 0
        = (divZh 1 (mulZh 1 ([1, 2, 3] : List (ZMod 5)))).getD (i - 1) 0
          - (mulZh 1 ([1, 2, 3] : List (ZMod 5))).getD i 0) ∧
    divZh 1 (mulZh 1 ([1, 2, 3] : List (ZMod 5))) = [1, 2, 3] ++ List.replicate 1 0) :=
  ⟨by decide, c7_divZh_exact 1 [1, 2, 3] (by decide)⟩

theorem getD_set {α : Type} (l : List α) (i j : Nat) (v d : α) :
    (l.set i v).getD j d = if j = i ∧ j < l.length then v else l.getD j d := by
  by_cases hji : j = i
  · subst hji
    by_cases hb : j < l.length
    · rw [if_pos ⟨rfl, hb⟩, List.getD_eq_getElem _ _ (by simpa using hb)]
      simp
    · rw [if_neg (by tauto), List.getD_eq_default _ _ (by simpa using not_lt.mp hb),
        List.getD_eq_default _ _ (by simpa using not_lt.mp hb)]
  · rw [if_neg (by tauto)]
    by_cases hb : j < l.length
    · rw [List.getD_eq_getElem _ _ (by simpa using hb), List.getD_eq_getElem _ _ hb,
        List.getElem_set_ne (by omega)]
    · rw [List.getD_eq_default _ _ (by simpa using not_lt.mp hb),
        List.getD_eq_default _ _ (by simpa using not_lt.mp hb)]

theorem evaluate_nil (x : F) : evaluate ([] : List F) x = 0 := rfl

theorem evaluate_cons (a : F) (t : List F) (x : F) :
    evaluate (a :: t) x = a + evaluate t x * x := rfl

theorem evaluate_append (a b : List F) (x : F) :
    evaluate (a ++ b) x = evaluate a x + x ^ a.length * evaluate b x := by
  induction a with
  | nil => simp [evaluate_nil]
  | cons c t ih =>
    simp only [List.cons_append, evaluate_cons, ih, List.length_cons]
    ring

theorem evaluate_replicate_zero (n : Nat) (x : F) :
    evaluate (List.replicate n (0 : F)) x = 0 := by
  induction n with
  | zero => rfl
  | succ m ih => simp [List.replicate_succ, evaluate_cons, ih]

theorem evaluate_eq_sum (l : List F) (x : F) :
    evaluate l x = ∑ i ∈ Finset.range l.length, l.getD i 0 * x ^ i := by
  induction l with
  | nil => simp [evaluate_nil]
  | cons a t ih =>
    rw [evaluate_cons, ih, List.length_cons, Finset.sum_range_succ']
    simp only [List.getD_cons_succ, List.getD_cons_zero, pow_zero]
    rw [Finset.sum_mul]
    have hcong : ∀ i ∈ Finset.range t.length,
        t.getD i 0 * x ^ i * x = t.getD i 0 * x ^ (i + 1) := by
      intro i _
      rw [pow_succ]
      ring
    rw [Finset.sum_congr rfl hcong]
    ring

theorem evaluate_set (x : F) (l : List F) :
    ∀ (j : Nat) (w : F), j < l.length →
      evaluate (l.set j w) x = evaluate l x - l.getD j 0 * x ^ j + w * x ^ j := by
  induction l with
  | nil => intro j w hj; simp at hj
  | cons a t ih =>
    intro j w hj
    cases j with
    | zero =>
      simp only [List.set_cons_zero, evaluate_cons, List.getD_cons_zero, pow_zero]
      ring
    | succ j' =>
      have hj' : j' < t.length := by simpa using hj
      simp only [List.set_cons_succ, evaluate_cons, List.getD_cons_succ, ih j' w hj',
        pow_succ]
      ring

theorem blindCoefficients_eq_blindFold (p bf : List F) :
    blindCoefficients p bf = blindFold p bf bf.length := rfl

theorem blindFold_succ (p bf : List F) (k : Nat) :
    blindFold p bf (k + 1) = blindStep p bf (blindFold p bf k) k := by
  unfold blindFold
  rw [List.range_succ, List.foldl_append]
  rfl

theorem blindStep_length (p bf buf : List F) (i : Nat) :
    (blindStep p bf buf i).length = buf.length := by
  unfold blindStep
  simp

theorem blindFold_length (p bf : List F) (k : Nat) :
    (blindFold p bf k).length = p.length + bf.length := by
  induction k with
  | zero => simp [blindFold]
  | succ k ih => rw [blindFold_succ, blindStep_length, ih]

theorem blindFold_getD (p bf : List F) :
    ∀ (k : Nat), k ≤ bf.length → ∀ (j : Nat),
      (blindFold p bf k).getD j 0
        = (p ++ List.replicate bf.length 0).getD j 0
          + (if p.length ≤ j ∧ j < p.length + k then bf.getD (j - p.length) 0 else 0)
          - (if j < k then bf.getD j 0 else 0) := by
  intro k
  induction k with
  | zero =>
    intro _ j
    rw [if_neg (by omega), if_neg (by omega)]
    simp [blindFold]
  | succ k ih =>
    intro hk j
    have hk' : k ≤ bf.length := by omega
    set B := blindFold p bf k with hB
    have hBlen : B.length = p.length + bf.length := blindFold_length p bf k
    have hstep : (blindStep p bf B k).getD j 0
        = if j = k ∧ j < p.length + bf.length then
            (if k = p.length + k ∧ k < p.length + bf.length then
                B.getD (p.length + k) 0 + bf.getD k 0
              else B.getD k 0) - bf.getD k 0
          else
            (if j = p.length + k ∧ j < p.length + bf.length then
                B.getD (p.length + k) 0 + bf.getD k 0
              else B.getD j 0) := by
      unfold blindStep
      rw [getD_set, getD_set, getD_set, List.length_set, hBlen]
    rw [blindFold_succ, ← hB, hstep]
    by_cases hjk : j = k
    · rw [hjk]
      rw [if_pos ⟨rfl, by omega⟩]
      by_cases hL : p.length = 0
      · rw [if_pos ⟨by omega, by omega⟩]
        rw [ih hk' (p.length + k)]
        rw [if_neg (by omega), if_neg (by omega)]
        have hidx : p.length + k = k := by omega
        have hidx2 : k - p.length = k := by omega
        rw [hidx, hidx2]
        rw [if_pos (show p.length ≤ k ∧ k < p.length + (k + 1) by omega),
          if_pos (show k < k + 1 by omega)]
        ring
      · rw [if_neg (by omega)]
        rw [ih hk' k]
        rw [if_neg (show ¬k < k by omega)]
        have heA : (if p.length ≤ k ∧ k < p.length + k then bf.getD (k - p.length) 0 else 0)
            = (if p.length ≤ k ∧ k < p.length + (k + 1) then bf.getD (k - p.length) 0
              else 0) := by
          by_cases hLj : p.length ≤ k
          · rw [if_pos ⟨hLj, by omega⟩, if_pos ⟨hLj, by omega⟩]
          · rw [if_neg (by tauto), if_neg (by tauto)]
        rw [heA, if_pos (show k < k + 1 by omega)]
        ring
    · rw [if_neg (by tauto)]
      by_cases hjLk : j = p.length + k
      · rw [if_pos ⟨hjLk, by omega⟩]
        rw [ih hk' (p.length + k)]
        rw [if_neg (by omega), if_neg (by omega)]
        subst hjLk
        rw [if_pos (by omega), if_neg (by omega)]
        have hidx : p.length + k - p.length = k := by omega
        rw [hidx]
        ring
      · rw [if_neg (by tauto)]
        rw [ih hk' j]
        have heA : (if p.length ≤ j ∧ j < p.length + k then bf.getD (j - p.length) 0 else 0)
            = (if p.length ≤ j ∧ j < p.length + (k + 1) then bf.getD (j - p.length) 0
              else 0) := by
          by_cases hc1 : p.length ≤ j ∧ j < p.length + k
          · rw [if_pos hc1, if_pos (by omega)]
          · rw [if_neg hc1, if_neg (by omega)]
        have heB : (if j < k then bf.getD j 0 else 0)
            = (if j < k + 1 then bf.getD j 0 else 0) := by
          by_cases hc2 : j < k
          · rw [if_pos hc2, if_pos (by omega)]
          · rw [if_neg hc2, if_neg (by omega)]
        rw [heA, heB]

theorem blindFold_evaluate (p bf : List F) (x : F) :
    ∀ (k : Nat), k ≤ bf.length →
      evaluate (blindFold p bf k) x
        = evaluate p x
          + ∑ i ∈ Finset.range k, bf.getD i 0 * (x ^ (p.length + i) - x ^ i) := by
  intro k
  induction k with
  | zero =>
    intro _
    simp [blindFold, evaluate_append, evaluate_replicate_zero]
  | succ k ih =>
    intro hk
    have hk' : k ≤ bf.length := by omega
    have hBlen : (blindFold p bf k).length = p.length + bf.length :=
      blindFold_length p bf k
    rw [blindFold_succ]
    unfold blindStep
    rw [evaluate_set x _ _ _ (by rw [List.length_set, hBlen]; omega)]
    rw [evaluate_set x _ _ _ (by rw [hBlen]; omega)]
    rw [getD_set]
    rw [ih hk', Finset.sum_range_succ]
    ring

/-- C8: `blindCoefficients` extends the buffer by the number of blinding
factors, adds `factors[i]` at position `L+i` and subtracts `factors[i]`
at position `i`; hence the blinded polynomial equals
`p(X) + (sum b_i X^i) * (X^L - 1)` with `L = n` the original length, and
agrees with `p` at every point of the size-`n` subgroup (every `x` with
`x^n = 1`). -/
theorem c8_blindCoefficients (p bf : List F) :
    (blindCoefficients p bf).length = p.length + bf.length ∧
    (∀ j, (blindCoefficients p bf).getD j 0
      = (p ++ List.replicate bf.length 0).getD j 0
        + (if p.length ≤ j ∧ j < p.length + bf.length then bf.getD (j - p.length) 0 else 0)
        - (if j < bf.length then bf.getD j 0 else 0)) ∧
    (∀ x : F, evaluate (blindCoefficients p bf) x
      = evaluate p x + evaluate bf x * (x ^ p.length - 1)) ∧
    (∀ x : F, x ^ p.length = 1 → evaluate (blindCoefficients p bf) x = evaluate p x) := by
  have heval : ∀ x : F, evaluate (blindCoefficients p bf) x
      = evaluate p x + evaluate bf x * (x ^ p.length - 1) := by
    intro x
    rw [blindCoefficients_eq_blindFold,
      blindFold_evaluate p bf x bf.length (le_refl _)]
    rw [evaluate_eq_sum bf x]
    rw [Finset.sum_mul]
    congr 1
    refine Finset.sum_congr rfl ?_
    intro i _
    rw [pow_add]
    ring
  refine ⟨?_, ?_, heval, ?_⟩
  · rw [blindCoefficients_eq_blindFold]
    exact blindFold_length p bf bf.length
  · intro j
    rw [blindCoefficients_eq_blindFold]
    exact blindFold_getD p bf bf.length (le_refl _) j
  · intro x hx
    rw [heval x, hx]
    ring

/-- Witness for C8 at a concrete input: `p = [1,2,3,4]` (length 4) and
`bf = [1,1]` over `F_5`, with subgroup point `x = 2` (`2^4 = 1` in
`F_5`). -/
theorem c8_witness :
    ((2 : ZMod 5) ^ ([1, 2, 3, 4] : List (ZMod 5)).length = 1) ∧
    evaluate (blindCoefficients ([1, 2, 3, 4] : List (ZMod 5)) [1, 1]) 2
      = evaluate ([1, 2, 3, 4] : List (ZMod 5)) 2 :=
  ⟨by decide, (c8_blindCoefficients [1, 2, 3, 4] [1, 1]).2.2.2 2 (by decide)⟩

theorem revDeg_lt_length (l : List F) (h : l ≠ []) : revDeg l < l.length := by
  induction l with
  | nil => exact absurd rfl h
  | cons a t ih =>
    by_cases ha : a = 0
    · simp only [revDeg, if_pos ha]
      cases t with
      | nil => simp [revDeg]
      | cons b u =>
        have := ih (by simp)
        simp only [List.length_cons] at *
        omega
    · simp only [revDeg, if_neg ha, List.length_cons]
      omega

theorem revDeg_getD_ne_zero (l : List F) (h : 0 < revDeg l) :
    l.getD (l.length - 1 - revDeg l) 0 ≠ 0 := by
  induction l with
  | nil => simp [revDeg] at h
  | cons a t ih =>
    by_cases ha : a = 0
    · simp only [revDeg, if_pos ha] at h ⊢
      have hne : t ≠ [] := by
        intro he
        subst he
        simp [revDeg] at h
      have hlt : revDeg t < t.length := revDeg_lt_length t hne
      have hidx : (a :: t).length - 1 - revDeg t = (t.length - 1 - revDeg t) + 1 := by
        simp only [List.length_cons]
        omega
      rw [hidx, List.getD_cons_succ]
      exact ih h
    · simp only [revDeg, if_neg ha] at h ⊢
      have hidx : (a :: t).length - 1 - t.length = 0 := by
        simp only [List.length_cons]
        omega
      rw [hidx, List.getD_cons_zero]
      exact ha

theorem revDeg_take_zero (l : List F) :
    ∀ x ∈ l.take (l.length - 1 - revDeg l), x = 0 := by
  induction l with
  | nil => simp
  | cons a t ih =>
    by_cases ha : a = 0
    · simp only [revDeg, if_pos ha, List.length_cons]
      intro x hx
      rcases Nat.eq_zero_or_pos (t.length - revDeg t) with hz | hpos
      · rw [show t.length + 1 - 1 - revDeg t = 0 by omega] at hx
        simp at hx
      · rw [show t.length + 1 - 1 - revDeg t = (t.length - 1 - revDeg t) + 1 by
          have := revDeg_lt_length t (by
            intro he
            subst he
            simp at hpos)
          omega] at hx
        rw [List.take_succ_cons] at hx
        rcases List.mem_cons.mp hx with h1 | h2
        · rw [h1]; exact ha
        · exact ih x h2
    · simp only [revDeg, if_neg ha, List.length_cons]
      intro x hx
      rw [show t.length + 1 - 1 - t.length = 0 by omega] at hx
      simp at hx

theorem revDeg_getD_zero (l : List F) (p : Nat) (hp : p < l.length - 1 - revDeg l) :
    l.getD p 0 = 0 := by
  have hlen : p < l.length := by omega
  have hp2 : p < (l.take (l.length - 1 - revDeg l)).length := by
    rw [List.length_take]
    omega
  have hz := revDeg_take_zero l ((l.take (l.length - 1 - revDeg l)).getD p 0)
    (by rw [List.getD_eq_getElem _ _ hp2]; exact List.getElem_mem hp2)
  rw [List.getD_eq_getElem _ _ hp2, List.getElem_take] at hz
  rw [List.getD_eq_getElem _ _ hlen]
  exact hz

theorem degree_lt_length (c : List F) (h : c ≠ []) : degree c < c.length := by
  unfold degree
  have := revDeg_lt_length c.reverse (by simpa using h)
  simpa using this

theorem getD_degree_ne_zero (c : List F) (h : 0 < degree c) :
    c.getD (degree c) 0 ≠ 0 := by
  have hne : c ≠ [] := by
    intro he
    subst he
    simp [degree, revDeg] at h
  have hlen : degree c < c.length := degree_lt_length c hne
  have h2 := revDeg_getD_ne_zero c.reverse (by simpa [degree] using h)
  rw [List.length_reverse] at h2
  have h2' : c.reverse.getD (c.length - 1 - degree c) 0 ≠ 0 := h2
  rw [getD_rev c 0 (c.length - 1 - degree c) (by omega)] at h2'
  have : c.length - 1 - (c.length - 1 - degree c) = degree c := by omega
  rw [this] at h2'
  exact h2'

theorem getD_eq_zero_of_degree_lt (c : List F) (j : Nat) (h : degree c < j) :
    c.getD j 0 = 0 := by
  by_cases hb : j < c.length
  · have hne : c ≠ [] := by
      intro he
      subst he
      simp at hb
    have hrev : c.getD j 0 = c.reverse.getD (c.length - 1 - j) 0 := by
      rw [getD_rev c 0 (c.length - 1 - j) (by omega)]
      congr 1
      omega
    rw [hrev]
    have hpos : c.length - 1 - j < c.reverse.length - 1 - revDeg c.reverse := by
      have hdl : degree c < c.length := degree_lt_length c hne
      have he : revDeg c.reverse = degree c := rfl
      simp only [List.length_reverse, he]
      omega
    exact revDeg_getD_zero c.reverse _ hpos
  · exact List.getD_eq_default _ _ (by omega)

theorem le_degree_of_getD_ne_zero (c : List F) (j : Nat) (h : c.getD j 0 ≠ 0) :
    j ≤ degree c := by
  by_contra hcon
  exact h (getD_eq_zero_of_degree_lt c j (by omega))

theorem subStep_length (q : List F) (s : Option F) (buf : List F) (i : Nat) :
    (subStep q s buf i).length = buf.length := by
  unfold subStep
  simp

theorem subFold_succ (p q : List F) (s : Option F) (k : Nat) :
    subFold p q s (k + 1) = subStep q s (subFold p q s k) k := by
  unfold subFold
  rw [List.range_succ, List.foldl_append]
  rfl

theorem subFold_length (p q : List F) (s : Option F) (k : Nat) :
    (subFold p q s k).length = p.length := by
  induction k with
  | zero => rfl
  | succ k ih => rw [subFold_succ, subStep_length, ih]

theorem optScale_eq (t : F) (s : Option F) :
    (match s with | some v => t * v | none => t) = t * s.getD 1 := by
  cases s with
  | none => simp
  | some v => simp

theorem subFold_getD (p q : List F) (s : Option F) :
    ∀ k, k ≤ p.length →
      (∀ j, k ≤ j → (subFold p q s k).getD j 0 = p.getD j 0) ∧
      (∀ j, j < k →
        (subFold p q s k).getD j 0
          = (if j < degree p then p.getD j 0 else 0)
            - (if j < degree q then q.getD j 0 else 0) * s.getD 1) := by
  intro k
  induction k with
  | zero =>
    intro _
    exact ⟨fun j _ => rfl, fun j hj => absurd hj (by omega)⟩
  | succ k ih =>
    intro hk
    obtain ⟨ih1, ih2⟩ := ih (by omega)
    have hBlen : (subFold p q s k).length = p.length := subFold_length p q s k
    have hdeg : k < degree (subFold p q s k) ↔ k < degree p := by
      by_cases hkd : k < degree p
      · have hdp : 0 < degree p := by omega
        have hne : (subFold p q s k).getD (degree p) 0 ≠ 0 := by
          rw [ih1 (degree p) (by omega)]
          exact getD_degree_ne_zero p hdp
        have hge := le_degree_of_getD_ne_zero (subFold p q s k) (degree p) hne
        exact ⟨fun _ => hkd, fun _ => by omega⟩
      · constructor
        · intro hlt
          exfalso
          have hD : 0 < degree (subFold p q s k) := by omega
          have hne := getD_degree_ne_zero (subFold p q s k) hD
          rw [ih1 (degree (subFold p q s k)) (by omega)] at hne
          have := le_degree_of_getD_ne_zero p (degree (subFold p q s k)) hne
          omega
        · intro hlt
          exact absurd hlt hkd
    constructor
    · intro j hj
      rw [subFold_succ]
      unfold subStep
      rw [getD_set, if_neg (by omega), ih1 j (by omega)]
    · intro j hj
      rw [subFold_succ]
      unfold subStep
      rw [getD_set]
      by_cases hjk : j = k
      · rw [if_pos ⟨hjk, by omega⟩, optScale_eq]
        simp only [hdeg]
        rw [hjk, ih1 k (le_refl k)]
      · rw [if_neg (by tauto)]
        exact ih2 j (by omega)

/-- C4 counterexample: over `F_5` with `p = [1,2]` and `q = [1,1]`,
the claim predicts `p.sub(q) = [1-1, 2-1] = [0,1]`, but the source's
strict `i < degree()` bounds drop the leading coefficients of both
polynomials and produce `[0,0]`. -/
theorem c4_counterexample :
    sub ([1, 2] : List (ZMod 5)) [1, 1] none ≠ some [0, 1] ∧
    sub ([1, 2] : List (ZMod 5)) [1, 1] none = some [0, 0] := by
  decide

/-- C4 (amended): for `q.length <= p.length`, `p.sub(q, s?)` succeeds and
stores at index `i` the value `a - b` where `a` is `p[i]` for
`i` strictly below `degree(p)` and zero otherwise (so the leading
coefficient of `p` is dropped), and `b` is `q[i]` for `i` strictly below
`degree(q)` and zero otherwise (so the leading coefficient of `q` is
dropped), scaled by the optional scalar (`1` when absent). -/
theorem c4_sub_amended (p q : List F) (s : Option F) (h : q.length ≤ p.length) :
    ∀ r, sub p q s = some r →
      r.length = p.length ∧
      ∀ j, r.getD j 0
        = (if j < degree p then p.getD j 0 else 0)
          - (if j < degree q then q.getD j 0 else 0) * s.getD 1 := by
  intro r hr
  unfold sub at hr
  rw [if_neg (by omega)] at hr
  have hr' : r = subFold p q s p.length := by
    injection hr with he
    exact he.symm
  subst hr'
  refine ⟨subFold_length p q s p.length, ?_⟩
  intro j
  by_cases hjb : j < p.length
  · exact (subFold_getD p q s p.length (le_refl _)).2 j hjb
  · have hlen := subFold_length p q s p.length
    rw [List.getD_eq_default _ _ (by omega)]
    have hdp : ¬j < degree p := by
      by_cases hpnil : p = []
      · subst hpnil
        have h0 : degree ([] : List F) = 0 := rfl
        rw [h0]
        simp at hjb
        omega
      · have := degree_lt_length p hpnil
        omega
    have hdq : ¬j < degree q := by
      by_cases hqnil : q = []
      · subst hqnil
        have h0 : degree ([] : List F) = 0 := rfl
        rw [h0]
        omega
      · have := degree_lt_length q hqnil
        omega
    rw [if_neg hdp, if_neg hdq]
    ring

/-- Witness for the amended C4 at a concrete input: `p = [1,2,3]`,
`q = [1]`, scale `2` over `F_5`. -/
theorem c4_witness :
    (([1] : List (ZMod 5)).length ≤ ([1, 2, 3] : List (ZMod 5)).length) ∧
    ∀ r, sub ([1, 2, 3] : List (ZMod 5)) [1] (some 2) = some r →
      r.length = ([1, 2, 3] : List (ZMod 5)).length ∧
      ∀ j, r.getD j 0
        = (if j < degree ([1, 2, 3] : List (ZMod 5))
            then ([1, 2, 3] : List (ZMod 5)).getD j 0 else 0)
          - (if j < degree ([1] : List (ZMod 5))
            then ([1] : List (ZMod 5)).getD j 0 else 0) * (some (2 : ZMod 5)).getD 1 :=
  ⟨by decide, c4_sub_amended [1, 2, 3] [1] (some 2) (by decide)⟩

/-- C1 (code bug, evaluated): with one constraint row, `bMap = [0]`,
`kCorrection = [1]` and witness value `1`, the buffer the source stores
is `[1]` (the bare witness), while the computed-and-discarded value of
the specification is `[2] = [witness + k]`; with two rows and
`kCorrection = [1, 0]` the intended `[2, -1]` also differs from the
stored `[1, 1]` (the odd-row negation is likewise discarded). -/
theorem c1_bufferB_divergence :
    buildBufferB (fun _ => (1 : ZMod 5)) [0, 0] [1, 0] 2 = [1, 1] ∧
    bufferBIntended (fun _ => (1 : ZMod 5)) [0, 0] [1, 0] 2 = [2, 4] ∧
    buildBufferB (fun _ => (1 : ZMod 5)) [0, 0] [1, 0] 2
      ≠ bufferBIntended (fun _ => (1 : ZMod 5)) [0, 0] [1, 0] 2 := by
  decide

theorem computeXiN_eq {F : Type} [CommRing F] (xi : F) (power : Nat) :
    computeXiN xi power = xi ^ (2 ^ power) := by
  unfold computeXiN
  induction power with
  | zero => simp
  | succ k ih =>
    rw [List.range_succ, List.foldl_append, ih]
    show (xi ^ 2 ^ k) * (xi ^ 2 ^ k) = _
    rw [← pow_add]
    congr 1
    omega

theorem computeXinAdd2_eq {F : Type} [CommRing F] (xi : F) (power : Nat) :
    computeXinAdd2 xi power = xi ^ (2 ^ power + 3) := by
  unfold computeXinAdd2
  rw [computeXiN_eq]
  rw [pow_add]
  ring

/-- C3 (code bug, evaluated): the factor the source multiplies into
`splitT[1]` is `xiN * xi * xi * xi = xi^(n+3)` and not the `xi^(n+2)`
announced in its own comment and in the specification; at `xi = 2`,
`power = 1` (`n = 2`) over `F_5` the two values differ (`2^5 = 2` vs
`2^4 = 1`). -/
theorem c3_xinAdd2_divergence :
    computeXinAdd2 (2 : ZMod 5) 1 = (2 : ZMod 5) ^ (2 ^ 1 + 3) ∧
    computeXinAdd2 (2 : ZMod 5) 1 ≠ (2 : ZMod 5) ^ (2 ^ 1 + 2) := by
  decide

/-- C5 counterexample: the proof object also carries the evaluation key
`t` (added by round 4, `proof.addEvaluation("t", ...)`), so the
evaluation keys are not exactly `a, b, s1, aw, bw, zw, r` as claimed. -/
theorem c5_counterexample :
    "t" ∈ proofEvaluationKeys ([] : List (ZMod 5)) [] [] [] [] [] 0 0 ∧
    "t" ∉ (["a", "b", "s1", "aw", "bw", "zw", "r"] : List String) ∧
    proofEvaluationKeys ([] : List (ZMod 5)) [] [] [] [] [] 0 0
      ≠ ["a", "b", "s1", "aw", "bw", "zw", "r"] := by
  decide

theorem getD_drop' {α : Type} (l : List α) (d : α) (m i : Nat) :
    (l.drop m).getD i d = l.getD (m + i) d := by
  by_cases hb : m + i < l.length
  · exact getD_drop l d m i hb
  · rw [List.getD_eq_default _ _ (by simp; omega), List.getD_eq_default _ _ (by omega)]

theorem range_map_getD_take {α β : Type} (f : α → β) (d : α) (l : List α) :
    ∀ n, n ≤ l.length →
      (List.range n).map (fun i => f (l.getD i d)) = (l.take n).map f := by
  intro n
  induction n with
  | zero => intro _; simp
  | succ m ih =>
    intro hm
    have hb : m < l.length := by omega
    rw [List.range_succ, List.map_append, ih (by omega), List.take_succ,
      List.getElem?_eq_getElem hb, List.map_append]
    congr 1
    simp [List.getElem?_eq_getElem hb]

/-- C5 (amended): the proof's scalar evaluation keys are exactly
`a, b, s1, t, aw, bw, zw, r` (in insertion order; `t` is also present),
the protocol tag is the string `baby_plonk` with the curve name kept
alongside, and the public signals are witness entries `1 .. nPublic` in
circuit order, rendered as decimal strings. -/
theorem c5_proof_shape_amended (p : Nat) (w : List (ZMod p)) (nPublic : Nat)
    (h : nPublic + 1 ≤ w.length)
    (pA pB pS1 pT pZ pR : List (ZMod p)) (xi om : ZMod p) :
    proofEvaluationKeys pA pB pS1 pT pZ pR xi om
      = ["a", "b", "s1", "t", "aw", "bw", "zw", "r"] ∧
    proofProtocol = "baby_plonk" ∧
    publicSignalsStr p w nPublic
      = ((w.drop 1).take nPublic).map (fun x => toString x.val) := by
  refine ⟨rfl, rfl, ?_⟩
  unfold publicSignalsStr
  have hfun : (fun i => toString ((w.getD (i + 1) 0 : ZMod p)).val)
      = (fun i => toString (((w.drop 1).getD i 0 : ZMod p)).val) := by
    funext i
    rw [getD_drop', Nat.add_comm]
  rw [hfun]
  exact range_map_getD_take (fun x : ZMod p => toString x.val) 0 (w.drop 1) nPublic
    (by simp; omega)

/-- Witness for the amended C5 at a concrete input: `F_5`,
witness buffer `[0, 2]`, one public input. -/
theorem c5_witness :
    (1 + 1 ≤ ([0, 2] : List (ZMod 5)).length) ∧
    (proofEvaluationKeys ([] : List (ZMod 5)) [] [] [] [] [] 0 0
      = ["a", "b", "s1", "t", "aw", "bw", "zw", "r"] ∧
    proofProtocol = "baby_plonk" ∧
    publicSignalsStr 5 [0, 2] 1
      = ((([0, 2] : List (ZMod 5)).drop 1).take 1).map (fun x => toString x.val)) :=
  ⟨by decide, c5_proof_shape_amended 5 [0, 2] 1 (by decide) [] [] [] [] [] [] 0 0⟩

end PolyLemmas

section FieldLemmas

variable {F : Type} [Field F] [DecidableEq F]

theorem accumulateStep_length (f : Nat → F) (n : Nat) (arr : List F) (i : Nat) :
    (accumulateStep f n arr i).length = arr.length := by
  unfold accumulateStep
  simp

theorem accumulateFold_succ (f : Nat → F) (n k : Nat) :
    accumulateFold f n (k + 1) = accumulateStep f n (accumulateFold f n k) k := by
  unfold accumulateFold
  rw [List.range_succ, List.foldl_append]
  rfl

theorem accumulateFold_length (f : Nat → F) (n : Nat) :
    ∀ k, (accumulateFold f n k).length = n := by
  intro k
  induction k with
  | zero =>
    unfold accumulateFold
    simp
  | succ k ih => rw [accumulateFold_succ, accumulateStep_length, ih]

theorem accumulateFold_getD (f : Nat → F) (n : Nat) (hn : 1 ≤ n) :
    ∀ k, k ≤ n - 1 →
      (accumulateFold f n k).getD 0 0 = 1 ∧
      (∀ j, 1 ≤ j → j ≤ k →
        (accumulateFold f n k).getD j 0 = ((List.range j).map f).prod) ∧
      (∀ j, k < j → j < n → (accumulateFold f n k).getD j 0 = 0) := by
  intro k
  induction k with
  | zero =>
    intro _
    refine ⟨?_, fun j h1 h2 => absurd h2 (by omega), fun j h1 _ => ?_⟩
    · unfold accumulateFold
      rw [List.range_zero, List.foldl_nil, getD_set, if_pos ⟨rfl, by simp; omega⟩]
    · unfold accumulateFold
      rw [List.range_zero, List.foldl_nil, getD_set, if_neg (by omega), getD_replicate_zero]
  | succ k ih =>
    intro hk
    obtain ⟨ih0, ih1, ih2⟩ := ih (by omega)
    have hlen : (accumulateFold f n k).length = n := accumulateFold_length f n k
    have hmod : (k + 1) % n = k + 1 := Nat.mod_eq_of_lt (by omega)
    rw [accumulateFold_succ]
    unfold accumulateStep
    rw [hmod]
    have hprev : (accumulateFold f n k).getD k 0 = ((List.range k).map f).prod := by
      by_cases hk0 : k = 0
      · subst hk0
        rw [ih0]
        simp
      · exact ih1 k (by omega) (le_refl k)
    refine ⟨?_, ?_, ?_⟩
    · rw [getD_set, if_neg (by omega), ih0]
    · intro j h1 h2
      by_cases hj : j = k + 1
      · rw [getD_set, if_pos ⟨hj, by omega⟩, hprev, hj]
        rw [List.range_succ, List.map_append, List.prod_append]
        simp
      · rw [getD_set, if_neg (by tauto)]
        exact ih1 j h1 (by omega)
    · intro j h1 h2
      rw [getD_set, if_neg (by omega)]
      exact ih2 j (by omega) h2

theorem accumulateWrap_length (f : Nat → F) (n : Nat) :
    (accumulateWrap f n).length = n :=
  accumulateFold_length f n n

theorem accumulateWrap_getD (f : Nat → F) (n : Nat) (hn : 1 ≤ n) :
    (accumulateWrap f n).getD 0 0 = ((List.range n).map f).prod ∧
    (∀ j, 1 ≤ j → j < n →
      (accumulateWrap f n).getD j 0 = ((List.range j).map f).prod) := by
  have hW : accumulateWrap f n = accumulateStep f n (accumulateFold f n (n - 1)) (n - 1) := by
    have hr : List.range n = List.range (n - 1) ++ [n - 1] := by
      rw [← List.range_succ]
      congr 1
      omega
    unfold accumulateWrap accumulateFold
    rw [hr, List.foldl_append]
    rfl
  obtain ⟨hp0, hp1, _⟩ := accumulateFold_getD f n hn (n - 1) (le_refl _)
  have hlen : (accumulateFold f n (n - 1)).length = n := accumulateFold_length f n (n - 1)
  have hmod : (n - 1 + 1) % n = 0 := by
    rw [show n - 1 + 1 = n by omega, Nat.mod_self]
  have hprev : (accumulateFold f n (n - 1)).getD (n - 1) 0
      = ((List.range (n - 1)).map f).prod := by
    by_cases h1 : n - 1 = 0
    · rw [h1] at hp0 ⊢
      rw [hp0]
      simp
    · exact hp1 (n - 1) (by omega) (le_refl _)
  rw [hW]
  unfold accumulateStep
  rw [hmod]
  constructor
  · rw [getD_set, if_pos ⟨rfl, by omega⟩, hprev]
    rw [show List.range n = List.range (n - 1) ++ [n - 1] by
      rw [← List.range_succ]; congr 1; omega]
    rw [List.map_append, List.prod_append]
    simp
  · intro j h1 hj
    rw [getD_set, if_neg (by omega)]
    exact hp1 j h1 (by omega)

theorem getD_zipWith_mul (a b : List F) (i : Nat)
    (ha : i < a.length) (hb : i < b.length) :
    (List.zipWith (fun x y => x * y) a b).getD i 0 = a.getD i 0 * b.getD i 0 := by
  rw [List.getD_eq_getElem _ _ (by simp [List.length_zipWith]; omega),
    List.getElem_zipWith, List.getD_eq_getElem _ _ ha, List.getD_eq_getElem _ _ hb]

theorem batchInverse_length (l : List F) : (batchInverse l).length = l.length := by
  unfold batchInverse
  simp

theorem batchInverse_getD (l : List F) (i : Nat) :
    (batchInverse l).getD i 0 = (l.getD i 0)⁻¹ := by
  by_cases hb : i < l.length
  · unfold batchInverse
    rw [List.getD_eq_getElem _ _ (by simpa using hb), List.getElem_map,
      List.getD_eq_getElem _ _ hb]
  · rw [List.getD_eq_default _ _ (by rw [batchInverse_length]; omega),
      List.getD_eq_default _ _ (by omega)]
    exact inv_zero.symm

theorem round2Z_getD_zero (num den : Nat → F) (n : Nat) (hn : 1 ≤ n) :
    (round2Z num den n).getD 0 0
      = ((List.range n).map num).prod * (((List.range n).map den).prod)⁻¹ := by
  unfold round2Z
  rw [getD_zipWith_mul _ _ 0 (by rw [accumulateWrap_length]; omega)
      (by rw [batchInverse_length, accumulateWrap_length]; omega),
    batchInverse_getD, (accumulateWrap_getD num n hn).1, (accumulateWrap_getD den n hn).1]

theorem round2Z_getD (num den : Nat → F) (n : Nat) (hn : 1 ≤ n) (j : Nat)
    (h1 : 1 ≤ j) (hj : j < n) :
    (round2Z num den n).getD j 0
      = ((List.range j).map num).prod * (((List.range j).map den).prod)⁻¹ := by
  unfold round2Z
  rw [getD_zipWith_mul _ _ j (by rw [accumulateWrap_length]; omega)
      (by rw [batchInverse_length, accumulateWrap_length]; omega),
    batchInverse_getD, (accumulateWrap_getD num n hn).2 j h1 hj,
    (accumulateWrap_getD den n hn).2 j h1 hj]

theorem recZ_eq_prod (num den : Nat → F) (k : Nat) :
    recZ num den k
      = ((List.range k).map num).prod * (((List.range k).map den).prod)⁻¹ := by
  induction k with
  | zero => simp [recZ]
  | succ k ih =>
    show recZ num den k * (num k * (den k)⁻¹) = _
    rw [ih, List.range_succ, List.map_append, List.prod_append,
      List.map_append, List.prod_append]
    simp only [List.map_cons, List.map_nil, List.prod_cons, List.prod_nil, mul_one]
    rw [mul_inv]
    ring

theorem round2Check_core (num den : Nat → F) (n : Nat) (hn : 1 ≤ n) :
    (∀ i, 1 ≤ i → i < n → (round2Z num den n).getD i 0 = recZ num den i) ∧
    (round2Z num den n).getD 0 0 = recZ num den n ∧
    (round2Check num den n = none ↔ recZ num den n ≠ 1) ∧
    (recZ num den n = 1 → round2Check num den n = some (round2Z num den n)) := by
  have h0 : (round2Z num den n).getD 0 0 = recZ num den n := by
    rw [round2Z_getD_zero num den n hn, recZ_eq_prod]
  refine ⟨?_, h0, ?_, ?_⟩
  · intro i h1 hi
    rw [round2Z_getD num den n hn i h1 hi, recZ_eq_prod]
  · unfold round2Check
    rw [h0]
    by_cases hc : recZ num den n = 1
    · rw [if_pos hc]
      simp [hc]
    · rw [if_neg hc]
      simp [hc]
  · intro hc
    unfold round2Check
    rw [h0, if_pos hc]

/-- C2: round 2 builds the `Z` buffer by the recurrence `Z[0] = 1`,
`Z[(i+1) mod n] = Z[i] * num_i * den_i^{-1}` (computed with separate
numerator/denominator accumulators and one batch inverse over the `n`
denominators), and throws the copy-constraint error iff the
wrapped-around entry `Z[0]` differs from 1; when it equals 1 the round
proceeds with this buffer (towards committing `[Z]_1`).  The denominators
are assumed non-zero (a zero denominator is a distinct batch-inverse
error per spec §4.1, and the batch-inverse model is exact only then). -/
theorem c2_round2_permutation (evalA evalB sigma1 sigma2 : Nat → F)
    (beta gamma k1 w : F) (n : Nat) (hn : 1 ≤ n)
    (hden : ∀ i, i < n → round2Den evalA evalB sigma1 sigma2 beta gamma i ≠ 0) :
    (∀ i, 1 ≤ i → i < n →
      (round2Z (round2Num evalA evalB beta gamma k1 w)
          (round2Den evalA evalB sigma1 sigma2 beta gamma) n).getD i 0
        = recZ (round2Num evalA evalB beta gamma k1 w)
            (round2Den evalA evalB sigma1 sigma2 beta gamma) i) ∧
    (round2Z (round2Num evalA evalB beta gamma k1 w)
        (round2Den evalA evalB sigma1 sigma2 beta gamma) n).getD 0 0
      = recZ (round2Num evalA evalB beta gamma k1 w)
          (round2Den evalA evalB sigma1 sigma2 beta gamma) n ∧
    (round2ComputeZ evalA evalB sigma1 sigma2 beta gamma k1 w n = none
      ↔ recZ (round2Num evalA evalB beta gamma k1 w)
          (round2Den evalA evalB sigma1 sigma2 beta gamma) n ≠ 1) ∧
    (recZ (round2Num evalA evalB beta gamma k1 w)
        (round2Den evalA evalB sigma1 sigma2 beta gamma) n = 1 →
      round2ComputeZ evalA evalB sigma1 sigma2 beta gamma k1 w n
        = some (round2Z (round2Num evalA evalB beta gamma k1 w)
            (round2Den evalA evalB sigma1 sigma2 beta gamma) n)) :=
  round2Check_core (round2Num evalA evalB beta gamma k1 w)
    (round2Den evalA evalB sigma1 sigma2 beta gamma) n hn

/-- Witness for C2 at a concrete input: `n = 1`, zero wire evaluations,
`beta = 0`, `gamma = 1` over `F_5` (the single denominator is 1). -/
theorem c2_witness :
    ((1 ≤ 1) ∧ ∀ i, i < 1 →
      round2Den (fun _ => (0 : ZMod 5)) (fun _ => 0) (fun _ => 0) (fun _ => 0) 0 1 i ≠ 0) ∧
    ((∀ i, 1 ≤ i → i < 1 →
      (round2Z (round2Num (fun _ => (0 : ZMod 5)) (fun _ => 0) 0 1 0 1)
          (round2Den (fun _ => 0) (fun _ => 0) (fun _ => 0) (fun _ => 0) 0 1) 1).getD i 0
        = recZ (round2Num (fun _ => (0 : ZMod 5)) (fun _ => 0) 0 1 0 1)
            (round2Den (fun _ => 0) (fun _ => 0) (fun _ => 0) (fun _ => 0) 0 1) i) ∧
    (round2Z (round2Num (fun _ => (0 : ZMod 5)) (fun _ => 0) 0 1 0 1)
        (round2Den (fun _ => 0) (fun _ => 0) (fun _ => 0) (fun _ => 0) 0 1) 1).getD 0 0
      = recZ (round2Num (fun _ => (0 : ZMod 5)) (fun _ => 0) 0 1 0 1)
          (round2Den (fun _ => 0) (fun _ => 0) (fun _ => 0) (fun _ => 0) 0 1) 1 ∧
    (round2ComputeZ (fun _ => (0 : ZMod 5)) (fun _ => 0) (fun _ => 0) (fun _ => 0)
        0 1 0 1 1 = none
      ↔ recZ (round2Num (fun _ => (0 : ZMod 5)) (fun _ => 0) 0 1 0 1)
          (round2Den (fun _ => 0) (fun _ => 0) (fun _ => 0) (fun _ => 0) 0 1) 1 ≠ 1) ∧
    (recZ (round2Num (fun _ => (0 : ZMod 5)) (fun _ => 0) 0 1 0 1)
        (round2Den (fun _ => 0) (fun _ => 0) (fun _ => 0) (fun _ => 0) 0 1) 1 = 1 →
      round2ComputeZ (fun _ => (0 : ZMod 5)) (fun _ => 0) (fun _ => 0) (fun _ => 0)
          0 1 0 1 1
        = some (round2Z (round2Num (fun _ => (0 : ZMod 5)) (fun _ => 0) 0 1 0 1)
            (round2Den (fun _ => 0) (fun _ => 0) (fun _ => 0) (fun _ => 0) 0 1) 1))) :=
  ⟨⟨by decide, by decide⟩,
    c2_round2_permutation (fun _ => (0 : ZMod 5)) (fun _ => 0) (fun _ => 0) (fun _ => 0)
      0 1 0 1 1 (by decide) (by decide)⟩

end FieldLemmas

section SplitLemmas

variable {F : Type} [CommRing F] [DecidableEq F]

theorem evaluate_all_zero (l : List F) (x : F) (h : ∀ y ∈ l, y = 0) :
    evaluate l x = 0 := by
  induction l with
  | nil => rfl
  | cons a t ih =>
    rw [evaluate_cons, h a (by simp), ih (fun y hy => h y (by simp [hy]))]
    ring

theorem evaluate_truncate (c : List F) (x : F) :
    evaluate (truncate c) x = evaluate c x := by
  unfold truncate
  by_cases hd : degree c + 1 < c.length
  · rw [if_pos hd]
    conv_rhs => rw [← List.take_append_drop (degree c + 1) c]
    rw [evaluate_append]
    have hz : evaluate (c.drop (degree c + 1)) x = 0 := by
      apply evaluate_all_zero
      intro y hy
      obtain ⟨j, hj, hjy⟩ := List.getElem_of_mem hy
      rw [← hjy, List.getElem_drop]
      have hb : degree c + 1 + j < c.length := by
        simp only [List.length_drop] at hj
        omega
      have h0 : c.getD (degree c + 1 + j) 0 = 0 :=
        getD_eq_zero_of_degree_lt c _ (by omega)
      rw [List.getD_eq_getElem _ _ hb] at h0
      exact h0
    rw [hz]
    ring
  · rw [if_neg hd]

theorem evaluate_subAt0 (w : Option F) (base : List F) (x : F)
    (h : w = none ∨ base ≠ []) :
    evaluate (subAt0 w base) x = evaluate base x - w.getD 0 := by
  cases w with
  | none =>
    show evaluate base x = _
    simp
  | some v =>
    have hb : base ≠ [] := by
      rcases h with h | h
      · simp at h
      · exact h
    cases base with
    | nil => exact absurd rfl hb
    | cons b0 bt =>
      show evaluate ((b0 :: bt).set 0 ((b0 :: bt).getD 0 0 - v)) x = _
      simp only [List.set_cons_zero, List.getD_cons_zero, evaluate_cons, Option.getD_some]
      ring

theorem splitSum_append (s : Nat) (x : F) (a b : List (List F)) :
    splitSum s x (a ++ b) = splitSum s x a + (x ^ s) ^ a.length * splitSum s x b := by
  induction a with
  | nil => simp [splitSum]
  | cons ch t ih =>
    have hl : splitSum s x ((ch :: t) ++ b)
        = evaluate ch x + x ^ s * splitSum s x (t ++ b) := rfl
    have hr : splitSum s x (ch :: t) = evaluate ch x + x ^ s * splitSum s x t := rfl
    rw [hl, hr, ih, List.length_cons, pow_succ]
    ring

theorem splitSum_replicate_zero (s : Nat) (x : F) (k : Nat) :
    splitSum s x (List.replicate k [0]) = 0 := by
  induction k with
  | zero => rfl
  | succ k ih =>
    rw [List.replicate_succ]
    show evaluate [(0 : F)] x + x ^ s * splitSum s x (List.replicate k [0]) = 0
    rw [ih, evaluate_cons, evaluate_nil]
    ring

theorem splitChunk_shift (c : List F) (s : Nat) (bf : List F) (m : Nat) (w : Option F)
    (hm : 2 ≤ m) (j : Nat) :
    splitChunk c s bf m w (j + 1)
      = splitChunk (c.drop s) s (bf.drop 1) (m - 1) (some (bf.getD 0 0)) j := by
  unfold splitChunk
  have hsub : (if j + 1 = 0 then w else some (bf.getD (j + 1 - 1) 0))
      = (if j = 0 then some (bf.getD 0 0) else some ((bf.drop 1).getD (j - 1) 0)) := by
    rw [if_neg (by omega)]
    by_cases hj0 : j = 0
    · rw [if_pos hj0, hj0]
    · rw [if_neg hj0, getD_drop']
      congr 2
      omega
  rw [hsub]
  by_cases hlast : j + 1 = m - 1
  · rw [if_pos hlast, if_pos (show j = m - 1 - 1 by omega)]
    have hdr : (c.drop s).drop ((m - 1 - 1) * s) = c.drop ((m - 1) * s) := by
      rw [List.drop_drop]
      congr 1
      have h12 : m - 1 - 1 = m - 2 := by omega
      have h2 : m - 1 = m - 2 + 1 := by omega
      rw [h12, h2, Nat.succ_mul]
      exact Nat.add_comm s ((m - 2) * s)
    rw [hdr]
  · rw [if_neg hlast, if_neg (show ¬j = m - 1 - 1 by omega)]
    have hdr : (c.drop s).drop (j * s) = c.drop ((j + 1) * s) := by
      rw [List.drop_drop]
      congr 1
      rw [Nat.succ_mul]
      exact Nat.add_comm s (j * s)
    rw [hdr]
    have hbf : (bf.drop 1).getD j (0 : F) = bf.getD (j + 1) 0 := by
      rw [getD_drop', Nat.add_comm]
    rw [hbf]

theorem splitSum_splitChunk (s : Nat) (hs : 1 ≤ s) (x : F) :
    ∀ (m : Nat), 1 ≤ m → ∀ (c bf : List F) (w : Option F),
      ((m - 1) * s < c.length ∨ (m = 1 ∧ w = none)) →
      splitSum s x ((List.range m).map (splitChunk c s bf m w))
        = evaluate c x - w.getD 0 := by
  intro m
  induction m with
  | zero => intro h; omega
  | succ m ih =>
    intro _ c bf w hcond
    by_cases hm1 : m = 0
    · subst hm1
      rw [show List.range 1 = [0] from rfl, List.map_cons, List.map_nil]
      show evaluate (splitChunk c s bf 1 w 0) x + x ^ s * splitSum s x [] = _
      rw [show splitSum s x ([] : List (List F)) = 0 from rfl]
      unfold splitChunk
      rw [if_pos (show (0 : Nat) = 1 - 1 by omega), if_pos rfl]
      rw [show (1 - 1) * s = 0 by omega, List.drop_zero]
      rw [evaluate_truncate, evaluate_subAt0 w c x ?hne]
      · ring
      case hne =>
        rcases hcond with h | h
        · right
          intro he
          subst he
          simp at h
        · left
          exact h.2
    · have hm2 : 2 ≤ m + 1 := by omega
      have hc : m * s < c.length := by
        rcases hcond with h | h
        · simpa using h
        · omega
      have hsc : s ≤ c.length := by
        have h1 : s ≤ m * s := Nat.le_mul_of_pos_left s (by omega)
        exact le_trans h1 (le_of_lt hc)
      rw [List.range_succ_eq_map, List.map_cons, List.map_map]
      show evaluate (splitChunk c s bf (m + 1) w 0) x
          + x ^ s * splitSum s x
              ((List.range m).map (splitChunk c s bf (m + 1) w ∘ Nat.succ)) = _
      have htl : (c.take s).length = s := by
        rw [List.length_take]
        omega
      have hhead : evaluate (splitChunk c s bf (m + 1) w 0) x
          = evaluate (c.take s) x + x ^ s * bf.getD 0 0 - w.getD 0 := by
        unfold splitChunk
        rw [if_neg (show ¬(0 : Nat) = m + 1 - 1 by omega), if_pos rfl]
        rw [show (0 : Nat) * s = 0 from Nat.zero_mul s, List.drop_zero]
        have hpad : padTo (s + 1) (c.take s) = c.take s ++ [0] := by
          unfold padTo
          rw [htl, show s + 1 - s = 1 by omega]
          rfl
        rw [hpad]
        have hset : (c.take s ++ [(0 : F)]).set s (bf.getD 0 0)
            = c.take s ++ [bf.getD 0 0] := by
          rw [List.set_append_right _ _ (by omega), htl, Nat.sub_self]
          rfl
        rw [hset, evaluate_subAt0 _ _ _ (Or.inr (by simp))]
        rw [evaluate_append, htl, evaluate_cons, evaluate_nil]
        ring
      have htail : splitSum s x
            ((List.range m).map (splitChunk c s bf (m + 1) w ∘ Nat.succ))
          = evaluate (c.drop s) x - bf.getD 0 0 := by
        have hmap : (List.range m).map (splitChunk c s bf (m + 1) w ∘ Nat.succ)
            = (List.range m).map
                (splitChunk (c.drop s) s (bf.drop 1) (m + 1 - 1) (some (bf.getD 0 0))) := by
          apply List.map_congr_left
          intro j _
          show splitChunk c s bf (m + 1) w (j + 1) = _
          exact splitChunk_shift c s bf (m + 1) w hm2 j
        rw [hmap, show m + 1 - 1 = m from rfl]
        have hres := ih (by omega) (c.drop s) (bf.drop 1) (some (bf.getD 0 0)) ?cond
        · rw [hres]
          rfl
        case cond =>
          left
          rw [List.length_drop]
          have he : (m - 1) * s + s = m * s := by
            have h2 : m = m - 1 + 1 := by omega
            conv_rhs => rw [h2]
            rw [Nat.succ_mul]
          set A := (m - 1) * s with hA
          set B := m * s with hB
          omega
      rw [hhead, htail]
      conv_rhs => rw [← List.take_append_drop s c]
      rw [evaluate_append, htl]
      ring

/-- C9: for `numPols >= 1` and a blinding list of length `numPols - 1`,
the chunks produced by `split(numPols, degPols, blinding)` recombine to
the original polynomial: summing `chunk_j(x) * x^(j*(degPols+1))` over
all returned chunks gives `c(x)` for every `x` — the blinding value
appended at position `degPols+1` of each non-last chunk cancels exactly
against the same value subtracted from coefficient 0 of the following
chunk. -/
theorem c9_split_sum (c : List F) (numPols degPols : Nat) (bf : List F)
    (h1 : 1 ≤ numPols) (h2 : bf.length = numPols - 1) :
    ∀ res, split c numPols degPols bf = some res →
      ∀ x : F, splitSum (degPols + 1) x res = evaluate c x := by
  intro res hres x
  unfold split at hres
  rw [if_neg (by omega)] at hres
  by_cases hone : numPols = 1
  · rw [if_pos hone] at hres
    injection hres with he
    rw [← he]
    show evaluate c x + x ^ (degPols + 1) * splitSum (degPols + 1) x [] = _
    rw [show splitSum (degPols + 1) x ([] : List (List F)) = 0 from rfl]
    ring
  · rw [if_neg hone, if_neg (by omega)] at hres
    injection hres with he
    rw [← he]
    rw [splitSum_append, splitSum_replicate_zero, mul_zero, add_zero]
    set s := degPols + 1 with hs
    set d := degree c with hd
    set nrp := (d + s) / s with hnrp
    set m := min numPols nrp with hm
    set q := d / s with hq
    have hdiv : nrp = q + 1 := by
      rw [hnrp, hq]
      exact Nat.add_div_right d (by omega)
    have hnrp1 : 1 ≤ nrp := by
      rw [hdiv]
      exact Nat.succ_le_succ (Nat.zero_le q)
    have hm1 : 1 ≤ m := by
      rw [hm]
      exact le_min h1 hnrp1
    have hcond : (m - 1) * s < c.length ∨ (m = 1 ∧ (none : Option F) = none) := by
      by_cases hm2 : m = 1
      · right
        exact ⟨hm2, rfl⟩
      · left
        have hge2 : 2 ≤ m := by omega
        have hnrp2 : 2 ≤ nrp := by
          rw [hm] at hge2
          omega
        have h1d : 1 ≤ q := by omega
        have hds : s ≤ d := by
          by_contra hlt
          have hq0 : q = 0 := by
            rw [hq]
            exact Nat.div_eq_of_lt (by omega)
          omega
        have hdc : d < c.length := by
          have hne := getD_degree_ne_zero c (show 0 < degree c by omega)
          by_contra hcon
          push_neg at hcon
          rw [← hd] at hne
          exact hne (List.getD_eq_default _ _ (by omega))
        have hle : m - 1 ≤ q := by omega
        have hmul : (m - 1) * s ≤ q * s := Nat.mul_le_mul_right s hle
        have hmul2 : q * s ≤ d := by
          rw [hq]
          exact Nat.div_mul_le_self d s
        exact lt_of_le_of_lt (le_trans hmul hmul2) hdc
    have hmain := splitSum_splitChunk s (by omega) x m hm1 c bf none hcond
    rw [hmain]
    simp

/-- Witness for C9 at a concrete input: `c = [1,2,3,4]`, 2 parts of
degree 1 (`s = 2`), blinding `[3]` over `F_5`. -/
theorem c9_witness :
    ((1 ≤ 2) ∧ ([3] : List (ZMod 5)).length = 2 - 1) ∧
    (∀ res, split ([1, 2, 3, 4] : List (ZMod 5)) 2 1 [3] = some res →
      ∀ x : ZMod 5, splitSum (1 + 1) x res = evaluate [1, 2, 3, 4] x) :=
  ⟨⟨by decide, by decide⟩, c9_split_sum [1, 2, 3, 4] 2 1 [3] (by decide) (by decide)⟩

end SplitLemmas

end SnarkJS
